import Mathlib

/-!
# Verification of the Resume-Scanner core (`src/app.py`)

Shallow embedding of the two core functions of the repository:

* `clean_text` (the Normalizer): lower-case, replace every character
  outside `[a-zA-Z]` by a space, collapse whitespace runs, strip.
* `calculate_skill_match` (the Matcher): short-circuit on empty input,
  TF-IDF vectorization over the joint vocabulary of the two texts with
  the fixed English stop-word list (sklearn `TfidfVectorizer` defaults:
  token pattern = maximal word-character runs of length at least 2 after
  lower-casing, smooth idf `log((1+2)/(1+df)) + 1`, L2 row
  normalization), cosine similarity scaled to a percentage, and the
  raw whitespace-token set difference as missing terms.

Strings are modeled as Lean `String`s (lists of characters); the
character-level helpers model the ASCII fragment of the Python string
operations.  Real-number arithmetic models the floating-point
computation exactly (exact reals); the spec itself declares exact
numeric match non-binding.  `TfidfVectorizer.fit_transform` raises
`ValueError` on an empty vocabulary; fallible behaviour is modeled with
`Except`.
-/

namespace ResumeScanner

/-- ASCII whitespace as matched by Python `\s` and `str.split()` /
`str.strip()` (ASCII fragment). -/
def isPySpace (c : Char) : Bool :=
  c == ' ' || c == '\t' || c == '\n' || c == '\r' || c == '\x0b' || c == '\x0c'

/-- A character in `[a-zA-Z]` (the class kept by `re.sub(r'[^a-zA-Z]', ' ', _)`). -/
def isAsciiAlpha (c : Char) : Bool :=
  ('a' ≤ c && c ≤ 'z') || ('A' ≤ c && c ≤ 'Z')

/-- Python regex word character `\w` (ASCII fragment): `[a-zA-Z0-9_]`. -/
def isWordChar (c : Char) : Bool :=
  isAsciiAlpha c || ('0' ≤ c && c ≤ '9') || c == '_'

/-- `str.lower` on one character (ASCII fragment). -/
def lowerChar (c : Char) : Char :=
  if 'A' ≤ c ∧ c ≤ 'Z' then Char.ofNat (c.toNat + 32) else c

/-- Worker for `splitRuns`: `acc` is the reversed current run of
non-separator characters. -/
def splitRunsGo (p : Char → Bool) : List Char → List Char → List (List Char)
  | acc, [] => if acc.isEmpty then [] else [acc.reverse]
  | acc, c :: cs =>
    if p c then
      if acc.isEmpty then splitRunsGo p [] cs else acc.reverse :: splitRunsGo p [] cs
    else
      splitRunsGo p (c :: acc) cs

/-- Split a character list into its maximal runs of characters that do not
satisfy the separator predicate `p`, discarding empty runs.  With
`p = isPySpace` this is Python `str.split()`; with `p = (fun c => !isWordChar c)`
the runs are the maximal `\w`-runs found by the regex `\b\w\w+\b` before
the length filter. -/
def splitRuns (p : Char → Bool) (l : List Char) : List (List Char) :=
  splitRunsGo p [] l

theorem splitRuns_nil (p : Char → Bool) : splitRuns p [] = [] := rfl

theorem splitRunsGo_mid (p : Char → Bool) (l : List Char) :
    ∀ (acc : List Char) (a : Char),
      splitRunsGo p (a :: acc) l =
        ((a :: acc).reverse ++ l.takeWhile (fun c => !p c)) ::
          splitRuns p (l.dropWhile (fun c => !p c)) := by
  induction l with
  | nil =>
    intro acc a
    simp [splitRunsGo, splitRuns]
  | cons c cs ih =>
    intro acc a
    by_cases hc : p c = true
    · simp [splitRunsGo, hc, splitRuns, List.takeWhile_cons, List.dropWhile_cons]
    · simp only [Bool.not_eq_true] at hc
      simp [splitRunsGo, hc, ih, List.takeWhile_cons, List.dropWhile_cons]

theorem splitRuns_cons_sep (p : Char → Bool) (c : Char) (cs : List Char)
    (h : p c = true) : splitRuns p (c :: cs) = splitRuns p cs := by
  simp [splitRuns, splitRunsGo, h]

theorem splitRuns_cons_run (p : Char → Bool) (c : Char) (cs : List Char)
    (h : p c = false) :
    splitRuns p (c :: cs) =
      (c :: cs.takeWhile (fun x => !p x)) ::
        splitRuns p (cs.dropWhile (fun x => !p x)) := by
  have : splitRuns p (c :: cs) = splitRunsGo p [c] cs := by
    simp [splitRuns, splitRunsGo, h]
  rw [this, splitRunsGo_mid]
  simp

/-- One step of `re.sub(r'[^a-zA-Z]', ' ', text)`: a character outside
`[a-zA-Z]` becomes a single space. -/
def subNonAlpha (c : Char) : Char :=
  if isAsciiAlpha c then c else ' '

/-- `re.sub(r'\s+', ' ', text)`: replace every maximal whitespace run by one
space.  The flag records whether the previous character was part of a
whitespace run already replaced. -/
def collapseWs : Bool → List Char → List Char
  | _, [] => []
  | prev, c :: cs =>
    if isPySpace c then
      if prev then collapseWs true cs else ' ' :: collapseWs true cs
    else
      c :: collapseWs false cs

/-- Python `str.strip()` (ASCII whitespace fragment). -/
def stripChars (l : List Char) : List Char :=
  ((l.dropWhile isPySpace).reverse.dropWhile isPySpace).reverse

/-- `clean_text` on the character list: lower-case, replace non-letters by
spaces, collapse whitespace runs, strip. -/
def cleanChars (l : List Char) : List Char :=
  stripChars (collapseWs false ((l.map lowerChar).map subNonAlpha))

/-- `clean_text` from `src/app.py`. -/
def clean_text (s : String) : String :=
  String.mk (cleanChars s.data)

/-- sklearn `ENGLISH_STOP_WORDS`, the fixed stop-word list selected by
`TfidfVectorizer(stop_words='english')`. -/
def englishStopWords : List String :=
  ["a", "about", "above", "across", "after", "afterwards", "again", "against",
   "all", "almost", "alone", "along", "already", "also", "although", "always",
   "am", "among", "amongst", "amoungst", "amount", "an", "and", "another",
   "any", "anyhow", "anyone", "anything", "anyway", "anywhere", "are",
   "around", "as", "at", "back", "be", "became", "because", "become",
   "becomes", "becoming", "been", "before", "beforehand", "behind", "being",
   "below", "beside", "besides", "between", "beyond", "bill", "both",
   "bottom", "but", "by", "call", "can", "cannot", "cant", "co", "computer",
   "con", "could", "couldnt", "cry", "de", "describe", "detail", "do", "done",
   "down", "due", "during", "each", "eg", "eight", "either", "eleven",
   "else", "elsewhere", "empty", "enough", "etc", "even", "ever", "every",
   "everyone", "everything", "everywhere", "except", "few", "fifteen",
   "fify", "fill", "find", "fire", "first", "five", "for", "former",
   "formerly", "forty", "found", "four", "from", "front", "full", "further",
   "get", "give", "go", "had", "has", "hasnt", "have", "he", "hence", "her",
   "here", "hereafter", "hereby", "herein", "hereupon", "hers", "herself",
   "him", "himself", "his", "how", "however", "hundred", "i", "ie", "if",
   "in", "inc", "indeed", "interest", "into", "is", "it", "its", "itself",
   "keep", "last", "latter", "latterly", "least", "less", "ltd", "made",
   "many", "may", "me", "meanwhile", "might", "mill", "mine", "more",
   "moreover", "most", "mostly", "move", "much", "must", "my", "myself",
   "name", "namely", "neither", "never", "nevertheless", "next", "nine",
   "no", "nobody", "none", "noone", "nor", "not", "nothing", "now",
   "nowhere", "of", "off", "often", "on", "once", "one", "only", "onto",
   "or", "other", "others", "otherwise", "our", "ours", "ourselves", "out",
   "over", "own", "part", "per", "perhaps", "please", "put", "rather", "re",
   "same", "see", "seem", "seemed", "seeming", "seems", "serious", "several",
   "she", "should", "show", "side", "since", "sincere", "six", "sixty", "so",
   "some", "somehow", "someone", "something", "sometime", "sometimes",
   "somewhere", "still", "such", "system", "take", "ten", "than", "that",
   "the", "their", "them", "themselves", "then", "thence", "there",
   "thereafter", "thereby", "therefore", "therein", "thereupon", "these",
   "they", "thick", "thin", "third", "this", "those", "though", "three",
   "through", "throughout", "thru", "thus", "to", "together", "too", "top",
   "toward", "towards", "twelve", "twenty", "two", "un", "under", "until",
   "up", "upon", "us", "very", "via", "was", "we", "well", "were", "what",
   "whatever", "when", "whence", "whenever", "where", "whereafter",
   "whereas", "whereby", "wherein", "whereupon", "wherever", "whether",
   "which", "while", "whither", "who", "whoever", "whole", "whom", "whose",
   "why", "will", "with", "within", "without", "would", "yet", "you",
   "your", "yours", "yourself", "yourselves"]

/-- The token runs found by `TfidfVectorizer`'s default token pattern
`\b\w\w+\b` after lower-casing: maximal word-character runs of length at
least 2. -/
def tokenRuns (l : List Char) : List (List Char) :=
  (splitRuns (fun c => !isWordChar c) (l.map lowerChar)).filter
    (fun r => decide (2 ≤ r.length))

/-- The token stream `TfidfVectorizer` derives from one document (before
stop-word removal). -/
def sklearnTokens (s : String) : List String :=
  (tokenRuns s.data).map (fun r => String.mk r)

/-- Document tokens after removing the English stop words; these are the
occurrences counted by the vectorizer. -/
def filteredTokens (s : String) : List String :=
  (sklearnTokens s).filter (fun t => !englishStopWords.contains t)

/-- Python `text.split()`: whitespace tokens, used by the missing-skills
set difference. -/
def wsTokens (s : String) : List String :=
  (splitRuns isPySpace s.data).map String.mk

/-- `sorted(list(set(job_description_text.split()) - set(resume_text.split())))`
from `calculate_skill_match`. -/
def missing_skills (resume_text job_description_text : String) : List String :=
  ((wsTokens job_description_text).toFinset \ (wsTokens resume_text).toFinset).sort (· ≤ ·)

/-- The joint vocabulary fitted by `TfidfVectorizer` over the two texts:
all non-stop-word tokens of either document.  `fit_transform` raises
`ValueError` exactly when this is empty. -/
def vocab (a b : String) : Finset String :=
  (filteredTokens a ++ filteredTokens b).toFinset

/-- Document frequency of term `t` among the two fitted documents. -/
def docFreq (a b t : String) : ℕ :=
  (if t ∈ filteredTokens a then 1 else 0) + (if t ∈ filteredTokens b then 1 else 0)

/-- Smooth inverse document frequency with sklearn defaults
(`smooth_idf=True`, two documents): `log((1 + 2) / (1 + df)) + 1`. -/
noncomputable def idf (a b t : String) : ℝ :=
  Real.log (3 / (1 + (docFreq a b t : ℝ))) + 1

/-- Unnormalized TF-IDF weight of term `t` for document `d` in the joint
fit over `a` and `b`: raw count times idf. -/
noncomputable def tfidf (a b d t : String) : ℝ :=
  ((filteredTokens d).count t : ℝ) * idf a b t

/-- Squared Euclidean norm of a document's weight vector over the joint
vocabulary. -/
noncomputable def sqNorm (a b d : String) : ℝ :=
  ∑ t ∈ vocab a b, tfidf a b d t ^ 2

noncomputable def l2norm (a b d : String) : ℝ :=
  Real.sqrt (sqNorm a b d)

/-- The L2-normalized row produced by `TfidfVectorizer` (sklearn
`normalize` leaves an all-zero row unchanged). -/
noncomputable def unitVec (a b d t : String) : ℝ :=
  if l2norm a b d = 0 then tfidf a b d t else tfidf a b d t / l2norm a b d

/-- `cosine_similarity(vectors[0:1], vectors[1:2])[0][0] * 100` from
`calculate_skill_match`: the dot product of the two normalized rows,
scaled to a percentage. -/
noncomputable def similarity (a b : String) : ℝ :=
  100 * ∑ t ∈ vocab a b, unitVec a b a t * unitVec a b b t

/-- `calculate_skill_match` from `src/app.py`.  Empty input short-circuits
to `(0.0, [])`; a joint vocabulary that is empty after stop-word and
length filtering makes `fit_transform` raise `ValueError`, modeled as
`Except.error`. -/
noncomputable def calculate_skill_match (resume_text job_description_text : String) :
    Except String (ℝ × List String) :=
  if resume_text = "" ∨ job_description_text = "" then
    Except.ok (0, [])
  else if vocab resume_text job_description_text = ∅ then
    Except.error "empty vocabulary; perhaps the documents only contain stop words"
  else
    Except.ok (similarity resume_text job_description_text,
      missing_skills resume_text job_description_text)

theorem docFreq_le_two (a b t : String) : docFreq a b t ≤ 2 := by
  unfold docFreq
  split <;> split <;> omega

theorem one_le_idf (a b t : String) : 1 ≤ idf a b t := by
  unfold idf
  have h2 : (docFreq a b t : ℝ) ≤ 2 := by
    exact_mod_cast docFreq_le_two a b t
  have hpos : (0 : ℝ) < 1 + (docFreq a b t : ℝ) := by positivity
  have h1 : (1 : ℝ) ≤ 3 / (1 + (docFreq a b t : ℝ)) := by
    rw [le_div_iff₀ hpos]
    linarith
  have := Real.log_nonneg h1
  linarith

theorem idf_nonneg (a b t : String) : 0 ≤ idf a b t :=
  le_trans zero_le_one (one_le_idf a b t)

theorem tfidf_nonneg (a b d t : String) : 0 ≤ tfidf a b d t :=
  mul_nonneg (Nat.cast_nonneg _) (idf_nonneg a b t)

theorem sqNorm_nonneg (a b d : String) : 0 ≤ sqNorm a b d :=
  Finset.sum_nonneg fun _ _ => sq_nonneg _

theorem l2norm_nonneg (a b d : String) : 0 ≤ l2norm a b d :=
  Real.sqrt_nonneg _

theorem unitVec_nonneg (a b d t : String) : 0 ≤ unitVec a b d t := by
  unfold unitVec
  split
  · exact tfidf_nonneg a b d t
  · exact div_nonneg (tfidf_nonneg a b d t) (l2norm_nonneg a b d)

theorem sqNorm_eq_zero_of_l2norm_eq_zero (a b d : String)
    (h : l2norm a b d = 0) : sqNorm a b d = 0 := by
  have h0 := sqNorm_nonneg a b d
  have := Real.sqrt_eq_zero'.mp h
  linarith

theorem sum_unitVec_sq_eq_one {a b d : String} (h : l2norm a b d ≠ 0) :
    ∑ t ∈ vocab a b, unitVec a b d t ^ 2 = 1 := by
  have hsq : sqNorm a b d ≠ 0 := fun hz => h (by simp [l2norm, hz])
  have hone : ∑ t ∈ vocab a b, unitVec a b d t ^ 2 = sqNorm a b d / sqNorm a b d := by
    unfold unitVec
    rw [Finset.sum_congr rfl fun t _ => by rw [if_neg h]]
    have hl2 : l2norm a b d ^ 2 = sqNorm a b d :=
      Real.sq_sqrt (sqNorm_nonneg a b d)
    calc ∑ t ∈ vocab a b, (tfidf a b d t / l2norm a b d) ^ 2
        = ∑ t ∈ vocab a b, tfidf a b d t ^ 2 / sqNorm a b d := by
          refine Finset.sum_congr rfl fun t _ => ?_
          rw [div_pow, hl2]
      _ = sqNorm a b d / sqNorm a b d := by
          rw [← Finset.sum_div]
          rfl
  rw [hone, div_self hsq]

theorem sum_unitVec_sq_le_one (a b d : String) :
    ∑ t ∈ vocab a b, unitVec a b d t ^ 2 ≤ 1 := by
  by_cases h : l2norm a b d = 0
  · have hz : sqNorm a b d = 0 := sqNorm_eq_zero_of_l2norm_eq_zero a b d h
    have : ∑ t ∈ vocab a b, unitVec a b d t ^ 2 = sqNorm a b d := by
      unfold unitVec sqNorm
      exact Finset.sum_congr rfl fun _ _ => by rw [if_pos h]
    rw [this, hz]
    exact zero_le_one
  · rw [sum_unitVec_sq_eq_one h]

theorem similarity_nonneg (a b : String) : 0 ≤ similarity a b := by
  unfold similarity
  have : 0 ≤ ∑ t ∈ vocab a b, unitVec a b a t * unitVec a b b t :=
    Finset.sum_nonneg fun t _ =>
      mul_nonneg (unitVec_nonneg a b a t) (unitVec_nonneg a b b t)
  linarith

theorem similarity_le_100 (a b : String) : similarity a b ≤ 100 := by
  unfold similarity
  set s := ∑ t ∈ vocab a b, unitVec a b a t * unitVec a b b t with hs
  have hnn : 0 ≤ s :=
    Finset.sum_nonneg fun t _ =>
      mul_nonneg (unitVec_nonneg a b a t) (unitVec_nonneg a b b t)
  have hcs := Finset.sum_mul_sq_le_sq_mul_sq (vocab a b)
    (fun t => unitVec a b a t) (fun t => unitVec a b b t)
  have ha := sum_unitVec_sq_le_one a b a
  have hb := sum_unitVec_sq_le_one a b b
  have hsa : 0 ≤ ∑ t ∈ vocab a b, unitVec a b a t ^ 2 :=
    Finset.sum_nonneg fun t _ => sq_nonneg _
  have hsb : 0 ≤ ∑ t ∈ vocab a b, unitVec a b b t ^ 2 :=
    Finset.sum_nonneg fun t _ => sq_nonneg _
  have hs1 : s ≤ 1 := by nlinarith
  linarith

theorem vocab_comm (a b : String) : vocab a b = vocab b a := by
  simp [vocab, List.toFinset_append, Finset.union_comm]

theorem docFreq_comm (a b t : String) : docFreq a b t = docFreq b a t :=
  add_comm _ _

theorem idf_comm (a b t : String) : idf a b t = idf b a t := by
  unfold idf
  rw [docFreq_comm]

theorem tfidf_comm (a b d t : String) : tfidf a b d t = tfidf b a d t := by
  unfold tfidf
  rw [idf_comm]

theorem sqNorm_comm (a b d : String) : sqNorm a b d = sqNorm b a d := by
  unfold sqNorm
  rw [vocab_comm]
  exact Finset.sum_congr rfl fun t _ => by rw [tfidf_comm]

theorem l2norm_comm (a b d : String) : l2norm a b d = l2norm b a d := by
  unfold l2norm
  rw [sqNorm_comm]

theorem unitVec_comm (a b d t : String) : unitVec a b d t = unitVec b a d t := by
  unfold unitVec
  rw [l2norm_comm, tfidf_comm]

theorem similarity_comm (a b : String) : similarity a b = similarity b a := by
  unfold similarity
  rw [vocab_comm]
  exact congrArg (100 * ·) <| Finset.sum_congr rfl fun t _ => by
    rw [unitVec_comm a b a t, unitVec_comm a b b t, mul_comm]

theorem vocab_congr {a a' b b' : String}
    (hA : (filteredTokens a').Perm (filteredTokens a))
    (hB : (filteredTokens b').Perm (filteredTokens b)) :
    vocab a' b' = vocab a b := by
  simp [vocab, List.toFinset_append,
    List.toFinset_eq_of_perm _ _ hA, List.toFinset_eq_of_perm _ _ hB]

theorem docFreq_congr {a a' b b' : String}
    (hA : (filteredTokens a').Perm (filteredTokens a))
    (hB : (filteredTokens b').Perm (filteredTokens b)) (t : String) :
    docFreq a' b' t = docFreq a b t := by
  unfold docFreq
  simp [hA.mem_iff, hB.mem_iff]

theorem tfidf_congr {a a' b b' d d' : String}
    (hA : (filteredTokens a').Perm (filteredTokens a))
    (hB : (filteredTokens b').Perm (filteredTokens b))
    (hD : (filteredTokens d').Perm (filteredTokens d)) (t : String) :
    tfidf a' b' d' t = tfidf a b d t := by
  unfold tfidf idf
  rw [docFreq_congr hA hB, hD.count_eq]

theorem sqNorm_congr {a a' b b' d d' : String}
    (hA : (filteredTokens a').Perm (filteredTokens a))
    (hB : (filteredTokens b').Perm (filteredTokens b))
    (hD : (filteredTokens d').Perm (filteredTokens d)) :
    sqNorm a' b' d' = sqNorm a b d := by
  unfold sqNorm
  rw [vocab_congr hA hB]
  exact Finset.sum_congr rfl fun t _ => by rw [tfidf_congr hA hB hD]

theorem unitVec_congr {a a' b b' d d' : String}
    (hA : (filteredTokens a').Perm (filteredTokens a))
    (hB : (filteredTokens b').Perm (filteredTokens b))
    (hD : (filteredTokens d').Perm (filteredTokens d)) (t : String) :
    unitVec a' b' d' t = unitVec a b d t := by
  unfold unitVec l2norm
  rw [sqNorm_congr hA hB hD, tfidf_congr hA hB hD]

theorem similarity_congr {a a' b b' : String}
    (hA : (filteredTokens a').Perm (filteredTokens a))
    (hB : (filteredTokens b').Perm (filteredTokens b)) :
    similarity a' b' = similarity a b := by
  unfold similarity
  rw [vocab_congr hA hB]
  exact congrArg (100 * ·) <| Finset.sum_congr rfl fun t _ => by
    rw [unitVec_congr hA hB hA, unitVec_congr hA hB hB]

theorem takeWhile_append_sep {f : Char → Bool} {c : Char} (hc : f c = false)
    (X Z : List Char) : (X ++ c :: Z).takeWhile f = X.takeWhile f := by
  induction X with
  | nil => simp [List.takeWhile_cons, hc]
  | cons x X ih =>
    rw [List.cons_append, List.takeWhile_cons, List.takeWhile_cons]
    cases hfx : f x <;> simp [ih]

theorem dropWhile_append_sep {f : Char → Bool} {c : Char} (hc : f c = false)
    (X Z : List Char) : (X ++ c :: Z).dropWhile f = X.dropWhile f ++ c :: Z := by
  induction X with
  | nil => simp [List.dropWhile_cons, hc]
  | cons x X ih =>
    rw [List.cons_append, List.dropWhile_cons, List.dropWhile_cons]
    cases hfx : f x <;> simp [ih]

theorem splitRuns_append_sep_aux (q : Char → Bool) (c : Char) (hc : q c = true) :
    ∀ (n : ℕ) (X Z : List Char), X.length ≤ n →
      splitRuns q (X ++ c :: Z) = splitRuns q X ++ splitRuns q Z := by
  intro n
  induction n with
  | zero =>
    intro X Z hX
    have hX0 : X = [] := List.length_eq_zero.mp (Nat.le_zero.mp hX)
    subst hX0
    rw [List.nil_append, splitRuns_cons_sep _ _ _ hc, splitRuns_nil, List.nil_append]
  | succ n ih =>
    intro X Z hX
    match X with
    | [] =>
      rw [List.nil_append, splitRuns_cons_sep _ _ _ hc, splitRuns_nil, List.nil_append]
    | x :: X' =>
      by_cases hx : q x = true
      · rw [List.cons_append, splitRuns_cons_sep _ _ _ hx, splitRuns_cons_sep _ _ _ hx]
        exact ih X' Z (by simpa using hX)
      · have hx' : q x = false := by simpa using hx
        have hcf : (fun y => !q y) c = false := by simp [hc]
        rw [List.cons_append, splitRuns_cons_run _ _ _ hx', splitRuns_cons_run _ _ _ hx',
          takeWhile_append_sep hcf, dropWhile_append_sep hcf, List.cons_append]
        have hlen : (X'.dropWhile fun y => !q y).length ≤ n :=
          le_trans (List.Sublist.length_le (List.dropWhile_sublist _)) (by simpa using hX)
        rw [ih _ Z hlen]

theorem splitRuns_append_sep (q : Char → Bool) (c : Char) (hc : q c = true)
    (X Z : List Char) :
    splitRuns q (X ++ c :: Z) = splitRuns q X ++ splitRuns q Z :=
  splitRuns_append_sep_aux q c hc X.length X Z le_rfl

/-- Splitting into maximal runs factors through any coarser split: if every
`p`-separator is also a `q`-separator, the `q`-runs of the whole list are the
concatenation of the `q`-runs of each `p`-run. -/
theorem splitRuns_flatMap_aux (p q : Char → Bool)
    (hpq : ∀ c, p c = true → q c = true) :
    ∀ (n : ℕ) (l : List Char), l.length ≤ n →
      splitRuns q l = (splitRuns p l).flatMap (splitRuns q) := by
  intro n
  induction n with
  | zero =>
    intro l hl
    have hl0 : l = [] := List.length_eq_zero.mp (Nat.le_zero.mp hl)
    subst hl0
    rfl
  | succ n ih =>
    intro l hl
    match l with
    | [] => rfl
    | c :: cs =>
      by_cases hp : p c = true
      · rw [splitRuns_cons_sep _ _ _ hp, splitRuns_cons_sep _ _ _ (hpq c hp)]
        exact ih cs (by simpa using hl)
      · have hp' : p c = false := by simpa using hp
        rw [splitRuns_cons_run _ _ _ hp', List.flatMap_cons]
        have htd := List.takeWhile_append_dropWhile (p := fun x => !p x) (l := cs)
        have hlen : (cs.dropWhile fun x => !p x).length ≤ n :=
          le_trans (List.Sublist.length_le (List.dropWhile_sublist _)) (by simpa using hl)
        rw [← ih _ hlen]
        match hdw : cs.dropWhile fun x => !p x with
        | [] =>
          have hcs : cs.takeWhile (fun x => !p x) = cs := by
            conv_rhs => rw [← htd]
            rw [hdw, List.append_nil]
          rw [splitRuns_nil, List.append_nil, hcs]
        | d :: rest =>
          have hd : p d = true := by
            have := List.head?_dropWhile_not (fun x => !p x) cs
            rw [hdw] at this
            simpa using this
          have hshape : c :: cs = (c :: cs.takeWhile fun x => !p x) ++ d :: rest := by
            rw [← hdw, List.cons_append, htd]
          rw [hshape, splitRuns_append_sep q d (hpq d hd), splitRuns_cons_sep _ _ _ (hpq d hd)]

theorem splitRuns_flatMap (p q : Char → Bool)
    (hpq : ∀ c, p c = true → q c = true) (l : List Char) :
    splitRuns q l = (splitRuns p l).flatMap (splitRuns q) :=
  splitRuns_flatMap_aux p q hpq l.length l le_rfl

/-- `splitRuns` commutes with mapping a character function that preserves the
separator predicate. -/
theorem splitRuns_map_aux (p : Char → Bool) (f : Char → Char)
    (hf : ∀ c, p (f c) = p c) :
    ∀ (n : ℕ) (l : List Char), l.length ≤ n →
      splitRuns p (l.map f) = (splitRuns p l).map (List.map f) := by
  intro n
  induction n with
  | zero =>
    intro l hl
    have hl0 : l = [] := List.length_eq_zero.mp (Nat.le_zero.mp hl)
    subst hl0
    rfl
  | succ n ih =>
    intro l hl
    match l with
    | [] => rfl
    | c :: cs =>
      by_cases hp : p c = true
      · rw [List.map_cons, splitRuns_cons_sep _ _ _ (by rw [hf]; exact hp),
          splitRuns_cons_sep _ _ _ hp]
        exact ih cs (by simpa using hl)
      · have hp' : p c = false := by simpa using hp
        have hpf : p (f c) = false := by rw [hf]; exact hp'
        have hcomp : ((fun x => !p x) ∘ f) = fun x => !p x := by
          funext x
          simp [Function.comp, hf]
        have hlen : (cs.dropWhile fun x => !p x).length ≤ n :=
          le_trans (List.Sublist.length_le (List.dropWhile_sublist _)) (by simpa using hl)
        rw [List.map_cons, splitRuns_cons_run _ _ _ hpf, splitRuns_cons_run _ _ _ hp',
          List.takeWhile_map, List.dropWhile_map, hcomp, ih _ hlen, List.map_cons,
          List.map_cons]

theorem char_le_iff {a b : Char} : a ≤ b ↔ a.toNat ≤ b.toNat := Iff.rfl

theorem char_eq_iff {a b : Char} : a = b ↔ a.toNat = b.toNat := by
  constructor
  · intro h
    rw [h]
  · intro h
    apply Char.eq_of_val_eq
    apply UInt32.eq_of_toBitVec_eq
    exact BitVec.eq_of_toNat_eq h

theorem toNat_ofNat_valid {n : ℕ} (h : n < 55296) : (Char.ofNat n).toNat = n := by
  rw [Char.ofNat, dif_pos (Or.inl h)]
  simp [Char.ofNatAux, Char.toNat, UInt32.toNat]

theorem toNat_lowerChar_of_upper {c : Char} (h : 'A' ≤ c ∧ c ≤ 'Z') :
    (lowerChar c).toNat = c.toNat + 32 := by
  have h90 : c.toNat ≤ 90 := char_le_iff.mp h.2
  unfold lowerChar
  rw [if_pos h]
  exact toNat_ofNat_valid (by omega)

theorem lowerChar_eq_self {c : Char} (h : ¬('A' ≤ c ∧ c ≤ 'Z')) :
    lowerChar c = c := by
  unfold lowerChar
  rw [if_neg h]

theorem isPySpace_false_of_gt {c : Char} (h : 32 < c.toNat) :
    isPySpace c = false := by
  have h1 : (' ' : Char).toNat = 32 := by decide
  have h2 : ('\t' : Char).toNat = 9 := by decide
  have h3 : ('\n' : Char).toNat = 10 := by decide
  have h4 : ('\r' : Char).toNat = 13 := by decide
  have h5 : ('\x0b' : Char).toNat = 11 := by decide
  have h6 : ('\x0c' : Char).toNat = 12 := by decide
  simp only [isPySpace, Bool.or_eq_false_iff, beq_eq_false_iff_ne, ne_eq, char_eq_iff]
  omega

theorem isPySpace_lowerChar (c : Char) : isPySpace (lowerChar c) = isPySpace c := by
  by_cases h : 'A' ≤ c ∧ c ≤ 'Z'
  · have h65 : 65 ≤ c.toNat := by
      have := char_le_iff.mp h.1
      simpa using this
    have hl := toNat_lowerChar_of_upper h
    rw [isPySpace_false_of_gt (by omega), isPySpace_false_of_gt (by omega)]
  · rw [lowerChar_eq_self h]

theorem isWordChar_false_of_isPySpace {c : Char} (h : isPySpace c = true) :
    isWordChar c = false := by
  simp only [isPySpace, Bool.or_eq_true, beq_iff_eq] at h
  rcases h with ((((rfl | rfl) | rfl) | rfl) | rfl) | rfl <;> decide

/-- The regex word tokens of a text are the word tokens of its whitespace
tokens, in order: a `\w`-run never spans whitespace. -/
theorem tokenRuns_flatMap (l : List Char) :
    tokenRuns l = (splitRuns isPySpace l).flatMap tokenRuns := by
  have hsep : ∀ c, isPySpace c = true → (!isWordChar c) = true := by
    intro c hc
    rw [isWordChar_false_of_isPySpace hc]
    rfl
  unfold tokenRuns
  rw [splitRuns_flatMap isPySpace (fun c => !isWordChar c) hsep (l.map lowerChar),
    splitRuns_map_aux isPySpace lowerChar isPySpace_lowerChar (l.length) l le_rfl,
    List.flatMap_map, List.filter_flatMap]

theorem sklearnTokens_flatMap (s : String) :
    sklearnTokens s = (wsTokens s).flatMap sklearnTokens := by
  unfold sklearnTokens wsTokens
  rw [List.flatMap_map]
  show _ = (splitRuns isPySpace s.data).flatMap
    (fun r => (tokenRuns (String.mk r).data).map (fun x => String.mk x))
  have : (fun (r : List Char) => (tokenRuns (String.mk r).data).map (fun x => String.mk x)) =
      fun r => (tokenRuns r).map (fun x => String.mk x) := rfl
  rw [this, ← List.map_flatMap, ← tokenRuns_flatMap]

/-- Permuting a text's whitespace tokens permutes its vectorizer token
stream. -/
theorem sklearnTokens_perm {a a' : String}
    (h : (wsTokens a').Perm (wsTokens a)) :
    (sklearnTokens a').Perm (sklearnTokens a) := by
  rw [sklearnTokens_flatMap a', sklearnTokens_flatMap a]
  exact h.flatMap_right _

theorem filteredTokens_perm {a a' : String}
    (h : (wsTokens a').Perm (wsTokens a)) :
    (filteredTokens a').Perm (filteredTokens a) :=
  (sklearnTokens_perm h).filter _

/-- A lowercase letter or a space: the character alphabet of normalized
text. -/
def azOrSpace (c : Char) : Prop :=
  ('a' ≤ c ∧ c ≤ 'z') ∨ c = ' '

/-- Adjacent-pair relation: not both characters are whitespace. -/
def notBothWs (x y : Char) : Prop :=
  ¬(isPySpace x = true ∧ isPySpace y = true)

theorem azOrSpace_subNonAlpha_lowerChar (c : Char) :
    azOrSpace (subNonAlpha (lowerChar c)) := by
  by_cases h : 'A' ≤ c ∧ c ≤ 'Z'
  · have h65 : 65 ≤ c.toNat := char_le_iff.mp h.1
    have h90 : c.toNat ≤ 90 := char_le_iff.mp h.2
    have hl := toNat_lowerChar_of_upper h
    have ha97 : ('a' : Char).toNat = 97 := by decide
    have hz122 : ('z' : Char).toNat = 122 := by decide
    have h1 : 'a' ≤ lowerChar c := char_le_iff.mpr (by rw [ha97, hl]; omega)
    have h2 : lowerChar c ≤ 'z' := char_le_iff.mpr (by rw [hz122, hl]; omega)
    have ha : isAsciiAlpha (lowerChar c) = true := by
      simp [isAsciiAlpha, h1, h2]
    left
    unfold subNonAlpha
    rw [if_pos ha]
    exact ⟨h1, h2⟩
  · rw [lowerChar_eq_self h]
    by_cases ha : isAsciiAlpha c = true
    · simp only [isAsciiAlpha, Bool.or_eq_true, Bool.and_eq_true, decide_eq_true_eq] at ha
      rcases ha with haz | hAZ
      · left
        unfold subNonAlpha
        rw [if_pos (by simp [isAsciiAlpha, haz.1, haz.2])]
        exact haz
      · exact absurd hAZ h
    · right
      unfold subNonAlpha
      rw [if_neg ha]

theorem collapseWs_cons_ws_true {d : Char} (h : isPySpace d = true) (cs : List Char) :
    collapseWs true (d :: cs) = collapseWs true cs := by
  simp [collapseWs, h]

theorem collapseWs_cons_ws_false {d : Char} (h : isPySpace d = true) (cs : List Char) :
    collapseWs false (d :: cs) = ' ' :: collapseWs true cs := by
  simp [collapseWs, h]

theorem collapseWs_cons_nws (flag : Bool) {d : Char} (h : isPySpace d = false)
    (cs : List Char) : collapseWs flag (d :: cs) = d :: collapseWs false cs := by
  cases flag <;> simp [collapseWs, h]

theorem mem_collapseWs :
    ∀ (l : List Char) (flag : Bool) (c : Char), c ∈ collapseWs flag l → c ∈ l ∨ c = ' ' := by
  intro l
  induction l with
  | nil =>
    intro flag c hc
    cases hc
  | cons d cs ih =>
    intro flag c hc
    by_cases hd : isPySpace d = true
    · cases flag with
      | true =>
        rw [collapseWs_cons_ws_true hd] at hc
        rcases ih true c hc with h | h
        · exact Or.inl (List.mem_cons_of_mem _ h)
        · exact Or.inr h
      | false =>
        rw [collapseWs_cons_ws_false hd] at hc
        rcases List.mem_cons.mp hc with rfl | hc
        · exact Or.inr rfl
        · rcases ih true c hc with h | h
          · exact Or.inl (List.mem_cons_of_mem _ h)
          · exact Or.inr h
    · have hd' : isPySpace d = false := by simpa using hd
      rw [collapseWs_cons_nws flag hd'] at hc
      rcases List.mem_cons.mp hc with rfl | hc
      · exact Or.inl (List.mem_cons_self _ _)
      · rcases ih false c hc with h | h
        · exact Or.inl (List.mem_cons_of_mem _ h)
        · exact Or.inr h

theorem collapseWs_true_head :
    ∀ (l : List Char) (c : Char), (collapseWs true l).head? = some c →
      isPySpace c = false := by
  intro l
  induction l with
  | nil =>
    intro c hc
    cases hc
  | cons d cs ih =>
    intro c hc
    by_cases hd : isPySpace d = true
    · rw [collapseWs_cons_ws_true hd] at hc
      exact ih c hc
    · have hd' : isPySpace d = false := by simpa using hd
      rw [collapseWs_cons_nws true hd'] at hc
      cases hc
      exact hd'

theorem collapseWs_chain (l : List Char) :
    (collapseWs false l).Chain' notBothWs ∧ (collapseWs true l).Chain' notBothWs := by
  induction l with
  | nil => exact ⟨List.chain'_nil, List.chain'_nil⟩
  | cons d cs ih =>
    by_cases hd : isPySpace d = true
    · rw [collapseWs_cons_ws_false hd, collapseWs_cons_ws_true hd]
      refine ⟨?_, ih.2⟩
      rw [List.chain'_cons']
      refine ⟨?_, ih.2⟩
      intro y hy
      have := collapseWs_true_head cs y hy
      intro hcon
      rw [this] at hcon
      exact Bool.false_ne_true hcon.2
    · have hd' : isPySpace d = false := by simpa using hd
      rw [collapseWs_cons_nws false hd', collapseWs_cons_nws true hd']
      have hch : (d :: collapseWs false cs).Chain' notBothWs := by
        rw [List.chain'_cons']
        refine ⟨?_, ih.1⟩
        intro y _
        intro hcon
        rw [hd'] at hcon
        exact Bool.false_ne_true hcon.1
      exact ⟨hch, hch⟩

theorem head?_of_prefix {l m : List Char} (h : l <+: m) (c : Char)
    (hc : l.head? = some c) : m.head? = some c := by
  obtain ⟨t, rfl⟩ := h
  cases l with
  | nil => cases hc
  | cons x xs => simpa using hc

theorem stripChars_subset {l : List Char} {c : Char} (h : c ∈ stripChars l) :
    c ∈ l := by
  unfold stripChars at h
  rw [List.mem_reverse] at h
  have h1 := (List.dropWhile_sublist (l := (l.dropWhile isPySpace).reverse) isPySpace).subset h
  rw [List.mem_reverse] at h1
  exact (List.dropWhile_sublist isPySpace).subset h1

theorem stripChars_chain {l : List Char} (h : l.Chain' notBothWs) :
    (stripChars l).Chain' notBothWs := by
  unfold stripChars
  rw [List.chain'_reverse]
  exact List.Chain'.suffix
    ((List.chain'_reverse (l := l.dropWhile isPySpace)).mpr
      (List.Chain'.suffix h (List.dropWhile_suffix _)))
    (List.dropWhile_suffix _)

theorem stripChars_head (l : List Char) (c : Char)
    (hc : (stripChars l).head? = some c) : isPySpace c = false := by
  have hp : stripChars l <+: l.dropWhile isPySpace := by
    unfold stripChars
    have hs : ((l.dropWhile isPySpace).reverse.dropWhile isPySpace) <:+
        (l.dropWhile isPySpace).reverse := List.dropWhile_suffix _
    have := List.reverse_prefix.mpr hs
    rwa [List.reverse_reverse] at this
  have hhd := head?_of_prefix hp c hc
  have := List.head?_dropWhile_not isPySpace l
  rw [hhd] at this
  exact this

theorem stripChars_last (l : List Char) (c : Char)
    (hc : (stripChars l).getLast? = some c) : isPySpace c = false := by
  unfold stripChars at hc
  rw [List.getLast?_reverse] at hc
  have := List.head?_dropWhile_not isPySpace (l.dropWhile isPySpace).reverse
  rw [hc] at this
  exact this

theorem cleanChars_azOrSpace {l : List Char} {c : Char} (h : c ∈ cleanChars l) :
    azOrSpace c := by
  unfold cleanChars at h
  have h1 := stripChars_subset h
  rcases mem_collapseWs _ false c h1 with h2 | rfl
  · rw [List.map_map] at h2
    obtain ⟨x, _, rfl⟩ := List.mem_map.mp h2
    exact azOrSpace_subNonAlpha_lowerChar x
  · right
    rfl

theorem cleanChars_chain (l : List Char) : (cleanChars l).Chain' notBothWs :=
  stripChars_chain (collapseWs_chain _).1

theorem cleanChars_head (l : List Char) (c : Char)
    (hc : (cleanChars l).head? = some c) : isPySpace c = false :=
  stripChars_head _ c hc

theorem cleanChars_last (l : List Char) (c : Char)
    (hc : (cleanChars l).getLast? = some c) : isPySpace c = false :=
  stripChars_last _ c hc

theorem azOrSpace_lowerChar_fix {c : Char} (h : azOrSpace c) : lowerChar c = c := by
  rcases h with haz | rfl
  · have h97 : 97 ≤ c.toNat := by
      have := char_le_iff.mp haz.1
      simpa using this
    refine lowerChar_eq_self fun hAZ => ?_
    have := char_le_iff.mp hAZ.2
    have h90 : c.toNat ≤ 90 := by simpa using this
    omega
  · decide

theorem azOrSpace_subNonAlpha_fix {c : Char} (h : azOrSpace c) : subNonAlpha c = c := by
  rcases h with haz | rfl
  · unfold subNonAlpha
    rw [if_pos (by simp [isAsciiAlpha, haz.1, haz.2])]
  · decide

theorem azOrSpace_isPySpace {c : Char} (h : azOrSpace c) (hw : isPySpace c = true) :
    c = ' ' := by
  rcases h with haz | rfl
  · have h97 : 97 ≤ c.toNat := by
      have := char_le_iff.mp haz.1
      simpa using this
    rw [isPySpace_false_of_gt (by omega)] at hw
    cases hw
  · rfl

theorem map_lowerChar_fix {l : List Char} (h : ∀ c ∈ l, azOrSpace c) :
    l.map lowerChar = l := by
  induction l with
  | nil => rfl
  | cons c cs ih =>
    rw [List.map_cons, azOrSpace_lowerChar_fix (h c (List.mem_cons_self _ _)),
      ih fun d hd => h d (List.mem_cons_of_mem _ hd)]

theorem map_subNonAlpha_fix {l : List Char} (h : ∀ c ∈ l, azOrSpace c) :
    l.map subNonAlpha = l := by
  induction l with
  | nil => rfl
  | cons c cs ih =>
    rw [List.map_cons, azOrSpace_subNonAlpha_fix (h c (List.mem_cons_self _ _)),
      ih fun d hd => h d (List.mem_cons_of_mem _ hd)]

theorem collapseWs_fix (l : List Char) (hsp : ∀ c ∈ l, isPySpace c = true → c = ' ')
    (hch : l.Chain' notBothWs) :
    collapseWs false l = l ∧
      ((∀ c, l.head? = some c → isPySpace c = false) → collapseWs true l = l) := by
  induction l with
  | nil => exact ⟨rfl, fun _ => rfl⟩
  | cons d cs ih =>
    have hchcs : cs.Chain' notBothWs := (List.chain'_cons'.mp hch).2
    have hspcs : ∀ c ∈ cs, isPySpace c = true → c = ' ' :=
      fun c hc => hsp c (List.mem_cons_of_mem _ hc)
    have ihcs := ih hspcs hchcs
    by_cases hd : isPySpace d = true
    · have hd' : d = ' ' := hsp d (List.mem_cons_self _ _) hd
      constructor
      · rw [collapseWs_cons_ws_false hd]
        have hhead : ∀ c, cs.head? = some c → isPySpace c = false := by
          intro c hc
          have hy := (List.chain'_cons'.mp hch).1 c hc
          cases hcw : isPySpace c with
          | false => rfl
          | true => exact absurd ⟨hd, hcw⟩ hy
        rw [ihcs.2 hhead, hd']
      · intro hhf
        have := hhf d rfl
        rw [this] at hd
        cases hd
    · have hd' : isPySpace d = false := by simpa using hd
      refine ⟨?_, fun _ => ?_⟩
      · rw [collapseWs_cons_nws false hd', ihcs.1]
      · rw [collapseWs_cons_nws true hd', ihcs.1]

theorem dropWhile_eq_self_of_head {p : Char → Bool} {l : List Char}
    (h : ∀ c, l.head? = some c → p c = false) : l.dropWhile p = l := by
  cases l with
  | nil => rfl
  | cons x xs =>
    have hx : p x = false := h x rfl
    exact List.dropWhile_cons_of_neg (by simp [hx])

theorem stripChars_fix (l : List Char)
    (hh : ∀ c, l.head? = some c → isPySpace c = false)
    (hl : ∀ c, l.getLast? = some c → isPySpace c = false) : stripChars l = l := by
  unfold stripChars
  rw [dropWhile_eq_self_of_head hh,
    dropWhile_eq_self_of_head (by
      intro c hc
      rw [List.head?_reverse] at hc
      exact hl c hc),
    List.reverse_reverse]

theorem cleanChars_fixpoint (l : List Char) (h1 : ∀ c ∈ l, azOrSpace c)
    (h2 : l.Chain' notBothWs)
    (h3 : ∀ c, l.head? = some c → isPySpace c = false)
    (h4 : ∀ c, l.getLast? = some c → isPySpace c = false) :
    cleanChars l = l := by
  unfold cleanChars
  rw [map_lowerChar_fix h1, map_subNonAlpha_fix h1,
    (collapseWs_fix l (fun c hc => azOrSpace_isPySpace (h1 c hc)) h2).1,
    stripChars_fix l h3 h4]

theorem cleanChars_idem (l : List Char) : cleanChars (cleanChars l) = cleanChars l :=
  cleanChars_fixpoint (cleanChars l) (fun _ hc => cleanChars_azOrSpace hc)
    (cleanChars_chain l) (cleanChars_head l) (cleanChars_last l)

theorem vocab_self (x : String) : vocab x x = (filteredTokens x).toFinset := by
  simp [vocab, List.toFinset_append]

theorem filteredTokens_empty : filteredTokens "" = [] := rfl

theorem similarity_self {x : String} (h : filteredTokens x ≠ []) :
    similarity x x = 100 := by
  obtain ⟨t0, ht0⟩ := List.exists_mem_of_ne_nil _ h
  have ht0v : t0 ∈ vocab x x := by
    rw [vocab_self]
    exact List.mem_toFinset.mpr ht0
  have hw : 0 < tfidf x x x t0 := by
    unfold tfidf
    have hc : 0 < (filteredTokens x).count t0 := List.count_pos_iff.mpr ht0
    have hc' : (0 : ℝ) < ((filteredTokens x).count t0 : ℝ) := by exact_mod_cast hc
    have hi : 0 < idf x x t0 := lt_of_lt_of_le zero_lt_one (one_le_idf x x t0)
    exact mul_pos hc' hi
  have hsq : 0 < sqNorm x x x :=
    Finset.sum_pos' (fun t _ => sq_nonneg _) ⟨t0, ht0v, by positivity⟩
  have hnrm : l2norm x x x ≠ 0 :=
    ne_of_gt (Real.sqrt_pos.mpr hsq)
  unfold similarity
  have : ∑ t ∈ vocab x x, unitVec x x x t * unitVec x x x t =
      ∑ t ∈ vocab x x, unitVec x x x t ^ 2 :=
    Finset.sum_congr rfl fun t _ => (sq (unitVec x x x t)).symm
  rw [this, sum_unitVec_sq_eq_one hnrm, mul_one]

theorem missing_skills_self (x : String) : missing_skills x x = [] := by
  unfold missing_skills
  rw [sdiff_self, Finset.bot_eq_empty]
  exact Finset.sort_empty _

theorem vocab_self_ne_empty {x : String} (h : filteredTokens x ≠ []) :
    vocab x x ≠ ∅ := by
  obtain ⟨t0, ht0⟩ := List.exists_mem_of_ne_nil _ h
  have : t0 ∈ vocab x x := by
    rw [vocab_self]
    exact List.mem_toFinset.mpr ht0
  exact Finset.ne_empty_of_mem this

theorem ne_empty_of_filteredTokens_ne_nil {x : String} (h : filteredTokens x ≠ []) :
    x ≠ "" := by
  intro he
  rw [he, filteredTokens_empty] at h
  exact h rfl

/-- The missing-terms rule in the spec's own words: the reference text's
whitespace tokens that do not occur among the candidate's whitespace
tokens, with duplicates removed, in lexicographically sorted order. -/
def specMissingTerms (candidateText referenceText : String) : List String :=
  List.insertionSort (· ≤ ·)
    (((wsTokens referenceText).filter
      (fun t => !((wsTokens candidateText).contains t))).dedup)

theorem missing_skills_eq_spec (a b : String) :
    missing_skills a b = specMissingTerms a b := by
  have hnd1 : (missing_skills a b).Nodup := Finset.sort_nodup _ _
  have hnd2 : (specMissingTerms a b).Nodup := by
    unfold specMissingTerms
    exact (List.nodup_dedup _).perm (List.perm_insertionSort _ _).symm
  have hmem : ∀ t, t ∈ missing_skills a b ↔ t ∈ specMissingTerms a b := by
    intro t
    unfold missing_skills specMissingTerms
    rw [Finset.mem_sort]
    simp [List.elem_iff, Finset.mem_sdiff]
  have hperm : List.Perm (missing_skills a b) (specMissingTerms a b) :=
    List.perm_of_nodup_nodup_toFinset_eq hnd1 hnd2 (List.toFinset.ext hmem)
  exact List.eq_of_perm_of_sorted hperm (Finset.sort_sorted _ _)
    (List.sorted_insertionSort _ _)

theorem calculate_skill_match_empty {a b : String} (h : a = "" ∨ b = "") :
    calculate_skill_match a b = Except.ok (0, []) := by
  unfold calculate_skill_match
  rw [if_pos h]

theorem calculate_skill_match_degenerate {a b : String} (h : ¬(a = "" ∨ b = ""))
    (hv : vocab a b = ∅) :
    calculate_skill_match a b =
      Except.error "empty vocabulary; perhaps the documents only contain stop words" := by
  unfold calculate_skill_match
  rw [if_neg h, if_pos hv]

theorem calculate_skill_match_ok {a b : String} (h : ¬(a = "" ∨ b = ""))
    (hv : vocab a b ≠ ∅) :
    calculate_skill_match a b = Except.ok (similarity a b, missing_skills a b) := by
  unfold calculate_skill_match
  rw [if_neg h, if_neg hv]

/-- C1: if either input text is empty, `calculate_skill_match` short-circuits
to the score `0.0` and the empty missing-terms list, without vectorizing and
without raising. -/
theorem claim_C1 (resume_text job_description_text : String)
    (h : resume_text = "" ∨ job_description_text = "") :
    calculate_skill_match resume_text job_description_text = Except.ok (0, []) :=
  calculate_skill_match_empty h

theorem claim_C1_witness :
    (("" : String) = "" ∨ ("anything" : String) = "") ∧
      calculate_skill_match "" "anything" = Except.ok (0, []) :=
  ⟨Or.inl rfl, claim_C1 "" "anything" (Or.inl rfl)⟩

/-- C2: the claim says a pair of non-empty texts whose joint vocabulary is
empty after stop-word/length filtering yields the zero result without an
exception; the code instead lets `TfidfVectorizer.fit_transform` raise
`ValueError` there.  This theorem evaluates the embedded code at such a
failing input: both texts are non-empty, made only of stop words, and the
call errors rather than returning `(0.0, [])`. -/
theorem claim_C2 :
    calculate_skill_match "the and" "of in" =
      Except.error "empty vocabulary; perhaps the documents only contain stop words" :=
  calculate_skill_match_degenerate (by decide) (by decide)

/-- C3, counterexample to the claim as stated: on the all-stop-word input
pair `("the", "and")` — both non-empty — the Matcher does not return any
score in `[0, 100]`; it raises (modeled as `Except.error`). -/
theorem claim_C3_counterexample :
    calculate_skill_match "the" "and" =
      Except.error "empty vocabulary; perhaps the documents only contain stop words" :=
  calculate_skill_match_degenerate (by decide) (by decide)

/-- C3, amended: whenever `calculate_skill_match` returns a result, the
returned similarity score lies in the closed interval `[0, 100]`. -/
theorem claim_C3 (a b : String) (s : ℝ) (m : List String)
    (h : calculate_skill_match a b = Except.ok (s, m)) : 0 ≤ s ∧ s ≤ 100 := by
  by_cases h1 : a = "" ∨ b = ""
  · rw [calculate_skill_match_empty h1] at h
    simp only [Except.ok.injEq, Prod.mk.injEq] at h
    obtain ⟨hs, -⟩ := h
    subst hs
    norm_num
  · by_cases h2 : vocab a b = ∅
    · rw [calculate_skill_match_degenerate h1 h2] at h
      simp at h
    · rw [calculate_skill_match_ok h1 h2] at h
      simp only [Except.ok.injEq, Prod.mk.injEq] at h
      obtain ⟨hs, -⟩ := h
      subst hs
      exact ⟨similarity_nonneg a b, similarity_le_100 a b⟩

theorem claim_C3_witness : 0 ≤ (0 : ℝ) ∧ (0 : ℝ) ≤ 100 :=
  claim_C3 "" "" 0 [] (calculate_skill_match_empty (Or.inl rfl))

/-- C4: for every input string, `clean_text` produces only lowercase letters
and spaces, with no two consecutive spaces and no leading or trailing
space. -/
theorem claim_C4 (s : String) :
    (∀ c ∈ (clean_text s).data, azOrSpace c) ∧
      (clean_text s).data.Chain' (fun x y => ¬(x = ' ' ∧ y = ' ')) ∧
      (clean_text s).data.head? ≠ some ' ' ∧
      (clean_text s).data.getLast? ≠ some ' ' := by
  refine ⟨fun c hc => cleanChars_azOrSpace hc, ?_, ?_, ?_⟩
  · refine (cleanChars_chain s.data).imp fun x y hR hcon => hR ?_
    rw [hcon.1, hcon.2]
    exact ⟨rfl, rfl⟩
  · intro hcon
    exact absurd (cleanChars_head s.data ' ' hcon) (by decide)
  · intro hcon
    exact absurd (cleanChars_last s.data ' ' hcon) (by decide)

theorem claim_C4_witness :
    (∀ c ∈ (clean_text "AB  12c!").data, azOrSpace c) ∧
      (clean_text "AB  12c!").data.Chain' (fun x y => ¬(x = ' ' ∧ y = ' ')) ∧
      (clean_text "AB  12c!").data.head? ≠ some ' ' ∧
      (clean_text "AB  12c!").data.getLast? ≠ some ' ' :=
  claim_C4 "AB  12c!"

/-- C5: `clean_text` is a total function on strings (by construction in this
embedding), and on the spec's sample inputs it returns `""` for `""` and
`"abc def"` for `"ABC123 def!!"` without raising. -/
theorem claim_C5 :
    clean_text "" = "" ∧ clean_text "ABC123 def!!" = "abc def" ∧
      ∀ s : String, ∃ t : String, clean_text s = t :=
  ⟨by decide, by decide, fun s => ⟨clean_text s, rfl⟩⟩

/-- C6: the missing-terms output of `calculate_skill_match` is exactly the
spec's rule — the set difference of whitespace-split token sets
(reference minus candidate), duplicates removed, lexicographically
sorted, with no stop-word or length filter — and that is what the call
returns whenever it returns at all. -/
theorem claim_C6 (candidateText referenceText : String) :
    missing_skills candidateText referenceText =
        specMissingTerms candidateText referenceText ∧
      (candidateText ≠ "" → referenceText ≠ "" →
        vocab candidateText referenceText ≠ ∅ →
        ∃ s, calculate_skill_match candidateText referenceText =
          Except.ok (s, specMissingTerms candidateText referenceText)) := by
  refine ⟨missing_skills_eq_spec _ _, fun ha hb hv => ?_⟩
  refine ⟨similarity candidateText referenceText, ?_⟩
  rw [calculate_skill_match_ok (not_or.mpr ⟨ha, hb⟩) hv, missing_skills_eq_spec]

theorem claim_C6_witness :
    missing_skills "cat dog" "dog bird fish" = specMissingTerms "cat dog" "dog bird fish" ∧
      ∃ s, calculate_skill_match "cat dog" "dog bird fish" =
        Except.ok (s, specMissingTerms "cat dog" "dog bird fish") :=
  ⟨(claim_C6 "cat dog" "dog bird fish").1,
    (claim_C6 "cat dog" "dog bird fish").2 (by decide) (by decide) (by decide)⟩

/-- C7: the similarity score is symmetric — whatever score an invocation
returns, the swapped invocation returns the same score. -/
theorem claim_C7 (a b : String) (s : ℝ) (m : List String)
    (h : calculate_skill_match a b = Except.ok (s, m)) :
    ∃ m', calculate_skill_match b a = Except.ok (s, m') := by
  by_cases h1 : a = "" ∨ b = ""
  · rw [calculate_skill_match_empty h1] at h
    simp only [Except.ok.injEq, Prod.mk.injEq] at h
    obtain ⟨hs, -⟩ := h
    subst hs
    exact ⟨[], calculate_skill_match_empty (Or.symm h1)⟩
  · by_cases h2 : vocab a b = ∅
    · rw [calculate_skill_match_degenerate h1 h2] at h
      simp at h
    · rw [calculate_skill_match_ok h1 h2] at h
      simp only [Except.ok.injEq, Prod.mk.injEq] at h
      obtain ⟨hs, -⟩ := h
      subst hs
      have h1b : ¬(b = "" ∨ a = "") := fun hc => h1 (Or.symm hc)
      have h2b : vocab b a ≠ ∅ := by
        rw [← vocab_comm]
        exact h2
      exact ⟨missing_skills b a,
        by rw [calculate_skill_match_ok h1b h2b, similarity_comm b a]⟩

theorem claim_C7_witness :
    ∃ m', calculate_skill_match "anything" "" = Except.ok (0, m') :=
  claim_C7 "" "anything" 0 [] (calculate_skill_match_empty (Or.inl rfl))

/-- C8: on identical non-empty input with at least one non-stop-word token of
length at least 2 (equivalently, a non-empty filtered token stream), the
Matcher returns the score 100 and no missing terms. -/
theorem claim_C8 (x : String) (h : filteredTokens x ≠ []) :
    calculate_skill_match x x = Except.ok (100, []) := by
  have hx : x ≠ "" := ne_empty_of_filteredTokens_ne_nil h
  have h1 : ¬(x = "" ∨ x = "") := fun hc => hx (hc.elim id id)
  rw [calculate_skill_match_ok h1 (vocab_self_ne_empty h), similarity_self h,
    missing_skills_self]

theorem claim_C8_witness :
    filteredTokens "python developer" ≠ [] ∧
      calculate_skill_match "python developer" "python developer" =
        Except.ok (100, []) :=
  ⟨by decide, claim_C8 "python developer" (by decide)⟩

/-- C9: the Normalizer is idempotent. -/
theorem claim_C9 (s : String) : clean_text (clean_text s) = clean_text s :=
  congrArg String.mk (cleanChars_idem s.data)

/-- C10: the similarity score is invariant under reordering of each input's
whitespace-separated tokens (keeping multiplicities): the score depends only
on each text's bag of tokens. -/
theorem claim_C10 (a a' b b' : String)
    (hA : List.Perm (wsTokens a') (wsTokens a))
    (hB : List.Perm (wsTokens b') (wsTokens b)) :
    similarity a' b' = similarity a b :=
  similarity_congr (filteredTokens_perm hA) (filteredTokens_perm hB)

theorem claim_C10_witness :
    List.Perm (wsTokens "dog cat") (wsTokens "cat dog") ∧
      List.Perm (wsTokens "fish bird") (wsTokens "bird fish") ∧
      similarity "dog cat" "fish bird" = similarity "cat dog" "bird fish" :=
  ⟨by decide, by decide,
    claim_C10 "cat dog" "dog cat" "bird fish" "fish bird" (by decide) (by decide)⟩

end ResumeScanner
